import Mathlib

/-!
# Verification of the infinite-context chat API route

Shallow embedding of `src/infiniteContext/pages/api/chat.js`.

JavaScript strings are modelled as `List Char` (`Str`).  The external
Gemini call (`model.generateContent`) is modelled as an oracle
`GW : Nat → Str → Except Str Str` giving, for the i-th outbound call of a
request and the message sent, either the generated text or the error
message of the thrown error.  All other code is translated directly.
-/

set_option autoImplicit false
set_option maxRecDepth 40000

namespace Chat

/-- JavaScript strings are modelled as lists of characters. -/
abbrev Str := List Char

/-- Conversion from a Lean string literal to the `Str` model. -/
def str (s : String) : Str := s.toList

/-- JavaScript regexp class `\s`, restricted to its ASCII members (the
source text never depends on the non-ASCII whitespace code points). -/
def isWs (c : Char) : Bool :=
  c = ' ' || c = '\t' || c = '\n' || c = '\r' || c = '\x0b' || c = '\x0c'

/-- `leadsWith pat s` holds when `pat` occurs at the start of `s`. -/
def leadsWith : Str → Str → Bool
  | [], _ => true
  | _ :: _, [] => false
  | a :: as, b :: bs => a = b && leadsWith as bs

/-- `containsSeq pat s`: `pat` occurs contiguously somewhere in `s`
(JavaScript `String.prototype.includes`). -/
def containsSeq (pat : Str) : Str → Bool
  | [] => leadsWith pat []
  | s@(_ :: rest) => leadsWith pat s || containsSeq pat rest

/-- `text.split(/\s+/)`: each maximal run of whitespace separates tokens;
a leading (resp. trailing) whitespace run yields an empty leading
(resp. trailing) token, and the empty string yields one empty token.
Written as a structural right-fold: a whitespace character followed by
another whitespace character belongs to the same separator run and so
contributes nothing new. -/
def splitWs : Str → List Str
  | [] => [[]]
  | c :: cs =>
    if isWs c then
      match cs with
      | [] => [[], []]
      | c2 :: _ => if isWs c2 then splitWs cs else [] :: splitWs cs
    else
      match splitWs cs with
      | [] => [[c]]
      | t :: ts => (c :: t) :: ts

/-- JavaScript `Array.prototype.join(sep)`. -/
def joinSep (sep : Str) : List Str → Str
  | [] => []
  | [x] => x
  | x :: y :: xs => x ++ sep ++ joinSep sep (y :: xs)

example : splitWs (str " a  b ") = [str "", str "a", str "b", str ""] := by decide
example : splitWs (str "") = [str ""] := by decide
example : splitWs (str "  ") = [str "", str ""] := by decide
example : joinSep (str " ") [str "a", str "", str "b"] = str "a  b" := by decide

/-- `words.length` of the splitter: the number of tokens of the
whitespace split of `text` (this is the word count as the source
computes it; a leading or trailing whitespace run contributes an empty
boundary token). -/
def wordCount (text : Str) : Nat := (splitWs text).length

/-- Consecutive groups of `c` elements (the slices taken by the loop
`for (i = 0; i < words.length; i += chunkSize)`), via structural fuel so
that the definition reduces in the kernel.  The fuel `l.length` always
suffices because each step consumes at least one element. -/
def chunksOfFuel {α : Type} (c : Nat) : Nat → List α → List (List α)
  | 0, _ => []
  | _ + 1, [] => []
  | fuel + 1, a :: l => (a :: l.take (c - 1)) :: chunksOfFuel c fuel (l.drop (c - 1))

/-- Partition of a list into consecutive groups of `c` elements (the last
group may be shorter).  Matches the source loop for every `c ≥ 1`; for
`c = 0` the source loop would not terminate, and no claim concerns it. -/
def chunksOf {α : Type} (c : Nat) (l : List α) : List (List α) :=
  chunksOfFuel c l.length l

/-- Decimal digit character. -/
def digitChar (d : Nat) : Char :=
  if d = 0 then '0' else if d = 1 then '1' else if d = 2 then '2' else if d = 3 then '3'
  else if d = 4 then '4' else if d = 5 then '5' else if d = 6 then '6' else if d = 7 then '7'
  else if d = 8 then '8' else '9'

/-- Decimal rendering with structural fuel (fuel `n + 1` suffices since
the recursion divides by ten). -/
def natToStrFuel : Nat → Nat → Str
  | 0, _ => []
  | fuel + 1, n => if n < 10 then [digitChar n] else natToStrFuel fuel (n / 10) ++ [digitChar (n % 10)]

/-- JavaScript `ToString` of a non-negative integer: decimal notation. -/
def natToStr (n : Nat) : Str := natToStrFuel (n + 1) n

/-- First index at which `pat` occurs in the scanned string, as in
JavaScript `String.prototype.indexOf` with a string argument. -/
def findSub (pat : Str) : Str → Option Nat
  | [] => if leadsWith pat [] then some 0 else none
  | s@(_ :: rest) => if leadsWith pat s then some 0 else (findSub pat rest).map (· + 1)

/-- ECMAScript `GetSubstitution` for a string pattern (no capture
groups): in the replacement, `$$` yields `$`, `$&` the matched
substring, a dollar followed by a backquote the text before the match,
`$'` the text after the match, and any other `$`-sequence is passed
through literally. -/
def dollarSubst (matched before after : Str) : Str → Str
  | [] => []
  | [c] => [c]
  | c :: d :: r =>
    if c = '$' then
      if d = '$' then '$' :: dollarSubst matched before after r
      else if d = '&' then matched ++ dollarSubst matched before after r
      else if d = Char.ofNat 96 then before ++ dollarSubst matched before after r
      else if d = Char.ofNat 39 then after ++ dollarSubst matched before after r
      else '$' :: dollarSubst matched before after (d :: r)
    else c :: dollarSubst matched before after (d :: r)

/-- JavaScript `s.replace(pat, repl)` with string `pat`: replaces the
first occurrence of `pat`, processing `$`-sequences in `repl`; returns
`s` unchanged when `pat` does not occur. -/
def replaceFirst (s pat repl : Str) : Str :=
  match findSub pat s with
  | none => s
  | some i =>
    s.take i ++ dollarSubst pat (s.take i) (s.drop (i + pat.length)) repl ++ s.drop (i + pat.length)

/-- The fixed per-chunk prompt template (source line 22). -/
def systemPromptForEachChunk : Str :=
  str "Initial user\x27s message was too long to process in a single request. The message has been divided into smaller chunks and processed individually. You are in chunk #\x7b\x7bchunk_number\x7d\x7d / \x7b\x7btotal_chunks\x7d\x7d. You can assume other chunks are similar to this one. You do not need to do an introduction or greeting in this chunk. Just start answer directly from the context of this chunk. You will be given 1) what the user has asked to do in the beginning of the chunk, and 2) the chunk of text. Here is the user\x27s request: \x7b\x7buser_request\x7d\x7d. Here is the chunk of text: \x7b\x7bchunk_text\x7d\x7d. Please continue the conversation from this context."

/-- Placeholder for the chunk number. -/
def patNum : Str := str "\x7b\x7bchunk_number\x7d\x7d"
/-- Placeholder for the total chunk count. -/
def patTot : Str := str "\x7b\x7btotal_chunks\x7d\x7d"
/-- Placeholder for the user request. -/
def patReq : Str := str "\x7b\x7buser_request\x7d\x7d"
/-- Placeholder for the chunk text. -/
def patTxt : Str := str "\x7b\x7bchunk_text\x7d\x7d"

/-- Literal template text before the chunk-number placeholder. -/
def seg1 : Str := str "Initial user\x27s message was too long to process in a single request. The message has been divided into smaller chunks and processed individually. You are in chunk #"
/-- Literal template text between the first two placeholders. -/
def seg2 : Str := str " / "
/-- Literal template text between the second and third placeholders. -/
def seg3 : Str := str ". You can assume other chunks are similar to this one. You do not need to do an introduction or greeting in this chunk. Just start answer directly from the context of this chunk. You will be given 1) what the user has asked to do in the beginning of the chunk, and 2) the chunk of text. Here is the user\x27s request: "
/-- Literal template text between the last two placeholders. -/
def seg4 : Str := str ". Here is the chunk of text: "
/-- Literal template text after the chunk-text placeholder. -/
def seg5 : Str := str ". Please continue the conversation from this context."

example : systemPromptForEachChunk =
    seg1 ++ patNum ++ seg2 ++ patTot ++ seg3 ++ patReq ++ seg4 ++ patTxt ++ seg5 := by decide

/-- The four `.replace` calls of the splitter loop, in source order. -/
def buildPrompt (chunkNumber totalChunks : Nat) (userRequest chunkText : Str) : Str :=
  replaceFirst
    (replaceFirst
      (replaceFirst
        (replaceFirst systemPromptForEachChunk patNum (natToStr chunkNumber))
        patTot (natToStr totalChunks))
      patReq userRequest)
    patTxt chunkText

/-- Modelled from the spec (section 4.1): the fixed template with its four
placeholders replaced, respectively, by the 1-based chunk index, the
total chunk count, the verbatim user request and the chunk text.  Used
as the specification side of claim C7. -/
def specPrompt (chunkNumber totalChunks : Nat) (userRequest chunkText : Str) : Str :=
  seg1 ++ natToStr chunkNumber ++ seg2 ++ natToStr totalChunks ++ seg3 ++ userRequest ++
    seg4 ++ chunkText ++ seg5

/-- The record pushed into `chunks` by `processLongText`. -/
structure Chunk where
  prompt : Str
  chunkText : Str
  chunkNumber : Nat
  totalChunks : Nat
deriving DecidableEq

/-- Default chunk used with `List.getD`. -/
def cDefault : Chunk := ⟨[], [], 0, 0⟩

/-- One iteration of the splitter loop body for the group of words
starting at index `(chunkNumber - 1) * chunkSize`. -/
def mkChunk (userRequest : Str) (totalChunks chunkNumber : Nat) (g : List Str) : Chunk :=
  { prompt := buildPrompt chunkNumber totalChunks userRequest (joinSep (str " ") g)
  , chunkText := joinSep (str " ") g
  , chunkNumber := chunkNumber
  , totalChunks := totalChunks }

/-- The splitter loop: one chunk per word group, with `chunkNumber`
increasing by one per iteration starting at `n`. -/
def buildChunks (userRequest : Str) (totalChunks : Nat) : Nat → List (List Str) → List Chunk
  | _, [] => []
  | n, g :: gs => mkChunk userRequest totalChunks n g :: buildChunks userRequest totalChunks (n + 1) gs

/-- `processLongText(text, userRequest, chunkSize)` (source lines 53-78):
split on whitespace, compute `totalChunks = Math.ceil(words.length /
chunkSize)` and emit one chunk per `chunkSize`-word group. -/
def processLongText (text userRequest : Str) (chunkSize : Nat) : List Chunk :=
  let words := splitWs text
  let totalChunks := (words.length + chunkSize - 1) / chunkSize
  buildChunks userRequest totalChunks 1 (chunksOf chunkSize words)

example : (processLongText (str "a b c") (str "do") 2).map (fun ch => ch.chunkText) =
    [str "a b", str "c"] := by decide
example : (processLongText (str "a b c") (str "do") 2).map (fun ch => ch.totalChunks) = [2, 2] := by decide
example : buildPrompt 1 1 (str "u") (str "hi") = specPrompt 1 1 (str "u") (str "hi") := by decide
example : (processLongText (str "") (str "do") 500).length = 1 := by decide

/-! ## Model Gateway and Sequential Processor -/

/-- External environment: the outcome of the i-th outbound
`model.generateContent` call of a request, given the message sent —
either the generated text or the message of the thrown error. -/
abbrev GW := Nat → Str → Except Str Str

/-- `geminiResponse` (source lines 33-45): forwards the call and, on
failure, rethrows with the message `Gemini API error: ` followed by the
provider a message.  (The `console.log` after the `return` is dead code
and has no effect to model.) -/
def geminiResponse (gw : GW) (callIdx : Nat) (message : Str) : Except Str Str :=
  match gw callIdx message with
  | .ok t => .ok t
  | .error e => .error (str "Gemini API error: " ++ e)

/-- `modelResponse` (source lines 24-31): dispatch on the provider name;
both the `gemini` case and the default case call `geminiResponse`. -/
def modelResponse (gw : GW) (callIdx : Nat) (model message : Str) : Except Str Str :=
  if model = str "gemini" then geminiResponse gw callIdx message
  else geminiResponse gw callIdx message

/-- Rate-limit signature test (source lines 101-102): the lowercased
error message contains `429` or `too many requests`. -/
def isRateLimit (msg : Str) : Bool :=
  containsSeq (str "429") (msg.map Char.toLower) ||
    containsSeq (str "too many requests") (msg.map Char.toLower)

/-- The record pushed into `results` by `processChunks`
(`{...chunk, response, error}`). -/
structure Outcome extends Chunk where
  response : Option Str
  error : Option Str
deriving DecidableEq

/-- Default outcome used with `List.getD`. -/
def oDefault : Outcome := ⟨cDefault, none, none⟩

/-- Successful outcome for a chunk. -/
def mkSuccess (c : Chunk) (response : Str) : Outcome :=
  { toChunk := c, response := some response, error := none }

/-- Recorded failure outcome for a chunk. -/
def mkFailure (c : Chunk) (e : Str) : Outcome :=
  { toChunk := c, response := none, error := some e }

/-- The `for (const chunk of chunks)` loop of `processChunks` (source
lines 85-113), starting at outbound-call index `callIdx`.  Returns the
accumulated `results`, the `hitRateLimit` flag, and the list of
outbound-call indices actually attempted (one gateway call is made per
iteration, so the trace instruments which chunks were attempted).  The
100 ms post-success delay has no observable effect in this model. -/
def processChunksGo (gw : GW) : Nat → List Chunk → List Outcome × Bool × List Nat
  | _, [] => ([], false, [])
  | callIdx, chunk :: rest =>
    match modelResponse gw callIdx (str "gemini") chunk.prompt with
    | .ok response =>
      let r := processChunksGo gw (callIdx + 1) rest
      (mkSuccess chunk response :: r.1, r.2.1, callIdx :: r.2.2)
    | .error e =>
      if isRateLimit e then ([], true, [callIdx])
      else
        let r := processChunksGo gw (callIdx + 1) rest
        (mkFailure chunk e :: r.1, r.2.1, callIdx :: r.2.2)

/-- `ProcessingResult`: the object returned by `processChunks`
(source lines 115-120). -/
structure ProcResult where
  results : List Outcome
  hitRateLimit : Bool
  processedCount : Nat
  totalCount : Nat
deriving DecidableEq

/-- `processChunks(chunks)` (source lines 81-121). -/
def processChunks (gw : GW) (chunks : List Chunk) : ProcResult :=
  let r := processChunksGo gw 0 chunks
  { results := r.1
  , hitRateLimit := r.2.1
  , processedCount := r.1.length
  , totalCount := chunks.length }

/-- The outbound-call indices at which the processor invoked the Model
Gateway (instrumentation of the loop; call index `i` belongs to chunk
`i` since the loop makes exactly one call per chunk until it stops). -/
def attemptedCalls (gw : GW) (chunks : List Chunk) : List Nat :=
  (processChunksGo gw 0 chunks).2.2

/-- The gateway result the loop observes for the chunk `c` processed at
call index `i`. -/
def callAt (gw : GW) (i : Nat) (c : Chunk) : Except Str Str :=
  modelResponse gw i (str "gemini") c.prompt

/-- A call result that fails with a rate-limit-signature message. -/
def isRLfail : Except Str Str → Bool
  | .error e => isRateLimit e
  | .ok _ => false

/-! ## Request Handler and Response Assembler -/

/-- Truthiness of an optional string field (JavaScript: `undefined`,
`null` and the empty string are falsy). -/
def truthyStr : Option Str → Bool
  | none => false
  | some s => !s.isEmpty

/-- The successful-response filter and part labels of the handler
(source lines 141-143): keep outcomes whose `response` is truthy and
format each as `[Part chunkNumber/totalCount]` followed by a newline and
the response text. -/
def successParts (processedChunks : List Outcome) (totalCount : Nat) : List Str :=
  (processedChunks.filter fun c => truthyStr c.response).map fun c =>
    str "[Part " ++ natToStr c.chunkNumber ++ str "/" ++ natToStr totalCount ++ str "]\n" ++
      c.response.getD []

/-- The rate-limit status note (source lines 145-147). -/
def rateNote (processedCount totalCount : Nat) : Str :=
  str "\n\n[Note: Rate limit reached. Processed " ++ natToStr processedCount ++
    str " out of " ++ natToStr totalCount ++
    str " chunks. Please wait a moment before requesting more.]"

/-- The inbound request: method and the destructured body fields
`message`, `mode`, `fullText` (absent fields are `none`). -/
structure Req where
  method : Str
  message : Option Str
  mode : Option Str
  fullText : Option Str

/-- The serialized reply: HTTP status and the JSON fields the handler
may set (absent fields are `none`).  The source field `partial` is named
`partFlag` here because Lean reserves that identifier. -/
structure Resp where
  status : Nat
  response : Option Str := none
  chunks : Option (List Outcome) := none
  mode : Option Str := none
  partFlag : Option Bool := none
  processedCount : Option Nat := none
  totalCount : Option Nat := none
  error : Option Str := none
  details : Option Str := none
deriving DecidableEq

/-- The regular chat branch of the handler (source lines 157-164),
including the surrounding catch that turns a thrown error into a 500
reply (source lines 165-171). -/
def defaultChat (gw : GW) (message : Str) : Resp :=
  match modelResponse gw 0 (str "gemini") message with
  | .ok response => { status := 200, response := some response, mode := some (str "default") }
  | .error e =>
    { status := 500, error := some (str "Internal server error"), details := some e }

/-- `handler(req, res)` (source lines 123-172).  In the chunked branch
nothing can throw in this model (every gateway failure is caught inside
`processChunks`), so the catch-all 500 branch is reachable only from the
single-call branch, which `defaultChat` models. -/
def handler (gw : GW) (req : Req) : Resp :=
  if req.method ≠ str "POST" then
    { status := 405, error := some (str "Method not allowed") }
  else if !truthyStr req.message then
    { status := 400, error := some (str "Message is required") }
  else if req.mode = some (str "infinite") ∧ truthyStr req.fullText then
    let chunks := processLongText (req.fullText.getD []) (req.message.getD []) 500
    let pr := processChunks gw chunks
    let parts := successParts pr.results pr.totalCount
    let note := if pr.hitRateLimit then rateNote pr.processedCount pr.totalCount else []
    { status := 200
    , response := some (joinSep (str "\n\n") parts ++ note)
    , chunks := some pr.results
    , mode := some (str "infinite")
    , partFlag := some pr.hitRateLimit
    , processedCount := some pr.processedCount
    , totalCount := some pr.totalCount }
  else
    defaultChat gw (req.message.getD [])

/-! ## Lemmas about the chunk partition -/

theorem chunksOfFuel_congr {α : Type} (c : Nat) :
    ∀ (f1 f2 : Nat) (l : List α), l.length ≤ f1 → l.length ≤ f2 →
      chunksOfFuel c f1 l = chunksOfFuel c f2 l := by
  intro f1
  induction f1 with
  | zero =>
    intro f2 l h1 _
    have hl : l = [] := by cases l <;> simp_all
    subst hl
    cases f2 <;> rfl
  | succ f ih =>
    intro f2 l h1 h2
    cases l with
    | nil => cases f2 <;> rfl
    | cons a l' =>
      cases f2 with
      | zero => simp at h2
      | succ g =>
        simp only [List.length_cons] at h1 h2
        simp only [chunksOfFuel]
        congr 1
        exact ih g (l'.drop (c - 1)) (by simp only [List.length_drop]; omega)
          (by simp only [List.length_drop]; omega)

theorem chunksOf_nil {α : Type} (c : Nat) : chunksOf c ([] : List α) = [] := rfl

theorem chunksOf_cons {α : Type} (c : Nat) (a : α) (l : List α) :
    chunksOf c (a :: l) = (a :: l.take (c - 1)) :: chunksOf c (l.drop (c - 1)) := by
  show chunksOfFuel c (l.length + 1) (a :: l) = _
  simp only [chunksOfFuel]
  congr 1
  exact chunksOfFuel_congr c l.length (l.drop (c - 1)).length (l.drop (c - 1))
    (by simp [List.length_drop]) (Nat.le_refl _)

theorem chunksOf_length {α : Type} (c : Nat) (hc : 0 < c) :
    ∀ (l : List α), (chunksOf c l).length = (l.length + c - 1) / c := by
  have H : ∀ (n : Nat) (l : List α), l.length ≤ n →
      (chunksOf c l).length = (l.length + c - 1) / c := by
    intro n
    induction n with
    | zero =>
      intro l hl
      have : l = [] := by cases l <;> simp_all
      subst this
      simp only [chunksOf_nil, List.length_nil, Nat.zero_add]
      exact (Nat.div_eq_of_lt (by omega)).symm
    | succ n ih =>
      intro l hl
      cases l with
      | nil =>
        simp only [chunksOf_nil, List.length_nil, Nat.zero_add]
        exact (Nat.div_eq_of_lt (by omega)).symm
      | cons a l' =>
        rw [chunksOf_cons]
        simp only [List.length_cons]
        rw [ih (l'.drop (c - 1)) (by simp [List.length_drop] at hl ⊢; omega)]
        rw [List.length_drop]
        have hr : l'.length + 1 + c - 1 = l'.length + c := by omega
        rw [hr, Nat.add_div_right _ hc]
        rcases Nat.le_total (c - 1) l'.length with h | h
        · have : l'.length - (c - 1) + c - 1 = l'.length := by omega
          rw [this]
        · have h0 : l'.length - (c - 1) = 0 := by omega
          rw [h0]
          rw [Nat.div_eq_of_lt (show 0 + c - 1 < c by omega),
            Nat.div_eq_of_lt (show l'.length < c by omega)]
  exact fun l => H l.length l (Nat.le_refl _)

theorem chunksOf_ne_nil {α : Type} (c : Nat) (l : List α) :
    ∀ g ∈ chunksOf c l, g ≠ [] := by
  have H : ∀ (n : Nat) (l : List α), l.length ≤ n → ∀ g ∈ chunksOf c l, g ≠ [] := by
    intro n
    induction n with
    | zero =>
      intro l hl
      have : l = [] := by cases l <;> simp_all
      subst this
      simp [chunksOf_nil]
    | succ n ih =>
      intro l hl g hg
      cases l with
      | nil => simp [chunksOf_nil] at hg
      | cons a l' =>
        rw [chunksOf_cons] at hg
        rcases List.mem_cons.mp hg with h | h
        · subst h; simp
        · exact ih (l'.drop (c - 1)) (by simp [List.length_drop] at hl ⊢; omega) g h
  exact H l.length l (Nat.le_refl _)

theorem chunksOf_flatten {α : Type} (c : Nat) :
    ∀ (l : List α), (chunksOf c l).flatten = l := by
  have H : ∀ (n : Nat) (l : List α), l.length ≤ n → (chunksOf c l).flatten = l := by
    intro n
    induction n with
    | zero =>
      intro l hl
      have : l = [] := by cases l <;> simp_all
      subst this
      simp [chunksOf_nil]
    | succ n ih =>
      intro l hl
      cases l with
      | nil => simp [chunksOf_nil]
      | cons a l' =>
        rw [chunksOf_cons]
        simp only [List.flatten_cons]
        rw [ih (l'.drop (c - 1)) (by simp [List.length_drop] at hl ⊢; omega)]
        simp [List.take_append_drop]
  exact fun l => H l.length l (Nat.le_refl _)

theorem chunksOf_mem_subset {α : Type} (c : Nat) (l : List α) :
    ∀ g ∈ chunksOf c l, ∀ x ∈ g, x ∈ l := by
  intro g hg x hx
  rw [← chunksOf_flatten c l]
  exact List.mem_flatten.mpr ⟨g, hg, hx⟩

/-! ## Lemmas about the splitter loop -/

theorem buildChunks_length (ur : Str) (tc : Nat) :
    ∀ (gs : List (List Str)) (n : Nat), (buildChunks ur tc n gs).length = gs.length := by
  intro gs
  induction gs with
  | nil => intro n; rfl
  | cons g gs ih => intro n; simp [buildChunks, ih]

theorem buildChunks_totalChunks (ur : Str) (tc : Nat) :
    ∀ (gs : List (List Str)) (n : Nat) (ch : Chunk),
      ch ∈ buildChunks ur tc n gs → ch.totalChunks = tc := by
  intro gs
  induction gs with
  | nil => intro n ch h; simp [buildChunks] at h
  | cons g gs ih =>
    intro n ch h
    rcases List.mem_cons.mp h with h | h
    · subst h; rfl
    · exact ih (n + 1) ch h

theorem buildChunks_getD (ur : Str) (tc : Nat) :
    ∀ (gs : List (List Str)) (n i : Nat), i < gs.length →
      (buildChunks ur tc n gs).getD i cDefault = mkChunk ur tc (n + i) (gs.getD i []) := by
  intro gs
  induction gs with
  | nil => intro n i h; simp at h
  | cons g gs ih =>
    intro n i h
    cases i with
    | zero => simp [buildChunks]
    | succ i =>
      simp only [buildChunks, List.getD_cons_succ]
      rw [ih (n + 1) i (by simpa using h)]
      congr 1
      omega

theorem buildChunks_map_chunkText (ur : Str) (tc : Nat) :
    ∀ (gs : List (List Str)) (n : Nat),
      (buildChunks ur tc n gs).map (fun ch => ch.chunkText) = gs.map (joinSep (str " ")) := by
  intro gs
  induction gs with
  | nil => intro n; rfl
  | cons g gs ih => intro n; simp [buildChunks, mkChunk, ih]

theorem processLongText_length (text userRequest : Str) (chunkSize : Nat) (hcs : 0 < chunkSize) :
    (processLongText text userRequest chunkSize).length =
      (wordCount text + chunkSize - 1) / chunkSize := by
  show (buildChunks _ _ 1 (chunksOf chunkSize (splitWs text))).length = _
  rw [buildChunks_length, chunksOf_length chunkSize hcs]
  rfl

/-- Claim C1: for every non-empty `text` and positive `chunkSize`,
`processLongText` returns exactly `⌈wordCount text / chunkSize⌉` chunks
(written `(wordCount text + chunkSize - 1) / chunkSize`, which is the
ceiling of the division for a positive divisor), and the `totalChunks`
field of every returned chunk equals that value.  `wordCount` is the
token count of the whitespace split, exactly as the source computes it
(`text.split(/\s+/).length`). -/
theorem processLongText_count (text userRequest : Str) (chunkSize : Nat)
    (htext : text ≠ []) (hcs : 0 < chunkSize) :
    (processLongText text userRequest chunkSize).length =
      (wordCount text + chunkSize - 1) / chunkSize ∧
    ∀ ch ∈ processLongText text userRequest chunkSize,
      ch.totalChunks = (wordCount text + chunkSize - 1) / chunkSize := by
  constructor
  · exact processLongText_length text userRequest chunkSize hcs
  · intro ch hch
    exact buildChunks_totalChunks _ _ _ _ ch hch

/-- Witness for claim C1 at `text = "a b c"`, `chunkSize = 2`: the
hypotheses hold and the splitter yields `⌈3/2⌉ = 2` chunks. -/
theorem processLongText_count_witness :
    (processLongText (str "a b c") (str "do") 2).length =
      (wordCount (str "a b c") + 2 - 1) / 2 :=
  (processLongText_count (str "a b c") (str "do") 2 (by decide) (by decide)).1

/-! ## Claims about the sequential processor -/

theorem processChunksGo_count (gw : GW) :
    ∀ (chunks : List Chunk) (i : Nat),
      (processChunksGo gw i chunks).1.length ≤ chunks.length ∧
      ((processChunksGo gw i chunks).2.1 = false →
        (processChunksGo gw i chunks).1.length = chunks.length) := by
  intro chunks
  induction chunks with
  | nil => intro i; simp [processChunksGo]
  | cons c rest ih =>
    intro i
    have hrec := ih (i + 1)
    cases h : modelResponse gw i (str "gemini") c.prompt with
    | ok r =>
      simp only [processChunksGo, h, List.length_cons]
      exact ⟨Nat.succ_le_succ hrec.1, fun hb => by rw [hrec.2 hb]⟩
    | error e =>
      cases hrl : isRateLimit e with
      | true => simp [processChunksGo, h, hrl]
      | false =>
        simp only [processChunksGo, h, hrl, Bool.false_eq_true, if_false, List.length_cons]
        exact ⟨Nat.succ_le_succ hrec.1, fun hb => by rw [hrec.2 hb]⟩

/-- Claim C4: for every chunk sequence and every pattern of gateway
successes and failures, the returned `ProcessingResult` satisfies
`processedCount ≤ totalCount`, and `processedCount < totalCount` implies
`hitRateLimit = true`. -/
theorem processChunks_invariant (gw : GW) (chunks : List Chunk) :
    (processChunks gw chunks).processedCount ≤ (processChunks gw chunks).totalCount ∧
    ((processChunks gw chunks).processedCount < (processChunks gw chunks).totalCount →
      (processChunks gw chunks).hitRateLimit = true) := by
  have h := processChunksGo_count gw chunks 0
  constructor
  · exact h.1
  · intro hlt
    by_contra hb
    have hfalse : (processChunksGo gw 0 chunks).2.1 = false := by
      revert hb
      show ¬(processChunksGo gw 0 chunks).2.1 = true → _
      cases (processChunksGo gw 0 chunks).2.1 <;> simp
    have := h.2 hfalse
    have hlt' : (processChunksGo gw 0 chunks).1.length < chunks.length := hlt
    omega

/-- The single outcome the loop records for chunk `c` at call index `i`
when it does not stop there. -/
def expectedOutcome (gw : GW) (i : Nat) (c : Chunk) : Outcome :=
  match callAt gw i c with
  | .ok r => mkSuccess c r
  | .error e => mkFailure c e

/-- The outcomes the loop records for a run of chunks it fully
traverses. -/
def expectedOutcomes (gw : GW) : Nat → List Chunk → List Outcome
  | _, [] => []
  | i, c :: rest => expectedOutcome gw i c :: expectedOutcomes gw (i + 1) rest

theorem expectedOutcomes_length (gw : GW) :
    ∀ (chunks : List Chunk) (i : Nat), (expectedOutcomes gw i chunks).length = chunks.length := by
  intro chunks
  induction chunks with
  | nil => intro i; rfl
  | cons c rest ih => intro i; simp [expectedOutcomes, ih]

/-- As long as no rate-limit failure is hit, the loop records one
outcome per chunk, keeps going, and attempts every call: unrolling the
first `k` iterations. -/
theorem processChunksGo_progress (gw : GW) :
    ∀ (k : Nat) (chunks : List Chunk) (i : Nat), k ≤ chunks.length →
      (∀ j, j < k → isRLfail (callAt gw (i + j) (chunks.getD j cDefault)) = false) →
      processChunksGo gw i chunks =
        (expectedOutcomes gw i (chunks.take k) ++ (processChunksGo gw (i + k) (chunks.drop k)).1,
         (processChunksGo gw (i + k) (chunks.drop k)).2.1,
         (List.range k).map (i + ·) ++ (processChunksGo gw (i + k) (chunks.drop k)).2.2) := by
  intro k
  induction k with
  | zero =>
    intro chunks i _ _
    simp [expectedOutcomes]
  | succ k ih =>
    intro chunks i hk hpre
    cases chunks with
    | nil => simp at hk
    | cons c rest =>
      have h0 : isRLfail (callAt gw i c) = false := by
        have := hpre 0 (Nat.succ_pos k)
        simpa using this
      have hpre' : ∀ j, j < k → isRLfail (callAt gw (i + 1 + j) (rest.getD j cDefault)) = false := by
        intro j hj
        have := hpre (j + 1) (by omega)
        have harith : i + (j + 1) = i + 1 + j := by omega
        simpa [harith] using this
      have ihr := ih rest (i + 1) (by simpa using hk) hpre'
      have hrange : (List.range (k + 1)).map (i + ·) =
          i :: (List.range k).map (i + 1 + ·) := by
        rw [List.range_succ_eq_map]
        simp only [List.map_cons, List.map_map, Nat.add_zero]
        congr 1
        apply List.map_congr_left
        intro a _
        simp [Function.comp]
        omega
      have harith2 : i + (k + 1) = i + 1 + k := by omega
      cases hc : callAt gw i c with
      | ok r =>
        have hc' : modelResponse gw i (str "gemini") c.prompt = .ok r := hc
        simp only [processChunksGo, hc', List.take_succ_cons, List.drop_succ_cons,
          expectedOutcomes, expectedOutcome, hc, harith2, hrange, ihr, List.cons_append]
      | error e =>
        have hnrl : isRateLimit e = false := by
          rw [hc] at h0
          simpa [isRLfail] using h0
        have hc' : modelResponse gw i (str "gemini") c.prompt = .error e := hc
        simp only [processChunksGo, hc', hnrl, Bool.false_eq_true, if_false,
          List.take_succ_cons, List.drop_succ_cons, expectedOutcomes, expectedOutcome, hc,
          harith2, hrange, ihr, List.cons_append]

/-- On a non-empty chunk list the loop always makes its first call. -/
theorem processChunksGo_trace_cons (gw : GW) (i : Nat) (c : Chunk) (rest : List Chunk) :
    ∃ t, (processChunksGo gw i (c :: rest)).2.2 = i :: t := by
  cases hc : modelResponse gw i (str "gemini") c.prompt with
  | ok r =>
    refine ⟨(processChunksGo gw (i + 1) (c :: rest).tail).2.2, ?_⟩
    simp [processChunksGo, hc]
  | error e =>
    cases hrl : isRateLimit e with
    | true =>
      refine ⟨[], ?_⟩
      simp [processChunksGo, hc, hrl]
    | false =>
      refine ⟨(processChunksGo gw (i + 1) (c :: rest).tail).2.2, ?_⟩
      simp [processChunksGo, hc, hrl]

theorem getD_append_at {α : Type} (d : α) :
    ∀ (l1 : List α) (x : α) (l2 : List α), (l1 ++ x :: l2).getD l1.length d = x := by
  intro l1
  induction l1 with
  | nil => intro x l2; rfl
  | cons a l ih => intro x l2; simpa using ih x l2

/-- Claim C2: if the gateway call for the chunk at (0-based) position
`k` fails with a rate-limit-signature message while no earlier call
does, `processChunks` returns exactly the `k` outcomes of the earlier
chunks (none for the failing chunk), `hitRateLimit = true`,
`processedCount = k`, and the attempted calls are exactly
`0, …, k` — no chunk after the failing one is attempted.  (With the
claim written for 1-based chunk `k`, the position here is `k - 1` and
the counts are `k - 1`.) -/
theorem processChunks_rateLimitStop (gw : GW) (chunks : List Chunk) (k : Nat)
    (hk : k < chunks.length)
    (hpre : ∀ j, j < k → isRLfail (callAt gw j (chunks.getD j cDefault)) = false)
    (hfail : isRLfail (callAt gw k (chunks.getD k cDefault)) = true) :
    (processChunks gw chunks).results.length = k ∧
    (processChunks gw chunks).hitRateLimit = true ∧
    (processChunks gw chunks).processedCount = k ∧
    attemptedCalls gw chunks = List.range (k + 1) := by
  obtain ⟨e, he, hrl⟩ : ∃ e, callAt gw k (chunks.getD k cDefault) = .error e ∧
      isRateLimit e = true := by
    cases hc : callAt gw k (chunks.getD k cDefault) with
    | ok r => rw [hc] at hfail; simp [isRLfail] at hfail
    | error e =>
      rw [hc] at hfail
      exact ⟨e, rfl, by simpa [isRLfail] using hfail⟩
  have hprog := processChunksGo_progress gw k chunks 0 (Nat.le_of_lt hk)
    (by intro j hj; simpa using hpre j hj)
  have hdrop : chunks.drop k = chunks.getD k cDefault :: chunks.drop (k + 1) := by
    rw [List.getD_eq_getElem chunks cDefault hk]
    exact List.drop_eq_getElem_cons hk
  have hstop : processChunksGo gw k (chunks.drop k) = ([], true, [k]) := by
    have hgen : ∀ (ck : Chunk) (rest : List Chunk),
        modelResponse gw k (str "gemini") ck.prompt = .error e →
        processChunksGo gw k (ck :: rest) = ([], true, [k]) := by
      intro ck rest h
      simp [processChunksGo, h, hrl]
    rw [hdrop]
    exact hgen _ _ he
  rw [Nat.zero_add] at hprog
  rw [hstop] at hprog
  have hlen : (expectedOutcomes gw 0 (chunks.take k)).length = k := by
    rw [expectedOutcomes_length]
    simp [List.length_take]
    omega
  have hres : (processChunks gw chunks).results =
      expectedOutcomes gw 0 (chunks.take k) ++ [] := congrArg Prod.fst hprog
  have htrace : attemptedCalls gw chunks = (List.range k).map (0 + ·) ++ [k] := by
    show (processChunksGo gw 0 chunks).2.2 = _
    rw [hprog]
  refine ⟨?_, ?_, ?_, ?_⟩
  · rw [hres, List.append_nil, hlen]
  · show (processChunksGo gw 0 chunks).2.1 = true
    rw [hprog]
  · show (processChunksGo gw 0 chunks).1.length = k
    rw [show (processChunksGo gw 0 chunks).1 = (processChunks gw chunks).results from rfl,
      hres, List.append_nil, hlen]
  · rw [htrace, List.range_succ]
    congr 1
    simp

/-- Claim C3: if the gateway call for the chunk at (0-based) position
`k` fails with a non-rate-limit message while no earlier call fails with
a rate-limit-signature one, `processChunks` records at position `k` an
outcome for that chunk with its `error` field set to the message and its
`response` field absent, and the loop then attempts the call for the
next chunk whenever one exists. -/
theorem processChunks_continueOnError (gw : GW) (chunks : List Chunk) (k : Nat) (e : Str)
    (hk : k < chunks.length)
    (hpre : ∀ j, j < k → isRLfail (callAt gw j (chunks.getD j cDefault)) = false)
    (herr : callAt gw k (chunks.getD k cDefault) = .error e)
    (hnrl : isRateLimit e = false) :
    (processChunks gw chunks).results.getD k oDefault = mkFailure (chunks.getD k cDefault) e ∧
    (k + 1 < chunks.length → (k + 1) ∈ attemptedCalls gw chunks) := by
  have hprog := processChunksGo_progress gw k chunks 0 (Nat.le_of_lt hk)
    (by intro j hj; simpa using hpre j hj)
  rw [Nat.zero_add] at hprog
  have hdrop : chunks.drop k = chunks.getD k cDefault :: chunks.drop (k + 1) := by
    rw [List.getD_eq_getElem chunks cDefault hk]
    exact List.drop_eq_getElem_cons hk
  have hstep : processChunksGo gw k (chunks.drop k) =
      (mkFailure (chunks.getD k cDefault) e :: (processChunksGo gw (k + 1) (chunks.drop (k + 1))).1,
       (processChunksGo gw (k + 1) (chunks.drop (k + 1))).2.1,
       k :: (processChunksGo gw (k + 1) (chunks.drop (k + 1))).2.2) := by
    have hgen : ∀ (ck : Chunk) (rest : List Chunk),
        modelResponse gw k (str "gemini") ck.prompt = .error e →
        processChunksGo gw k (ck :: rest) =
          (mkFailure ck e :: (processChunksGo gw (k + 1) rest).1,
           (processChunksGo gw (k + 1) rest).2.1,
           k :: (processChunksGo gw (k + 1) rest).2.2) := by
      intro ck rest h
      simp only [processChunksGo, h, hnrl, Bool.false_eq_true, if_false]
    rw [hdrop]
    exact hgen _ _ herr
  rw [hstep] at hprog
  have hlen : (expectedOutcomes gw 0 (chunks.take k)).length = k := by
    rw [expectedOutcomes_length]
    simp [List.length_take]
    omega
  constructor
  · show (processChunksGo gw 0 chunks).1.getD k oDefault = _
    rw [hprog]
    have := getD_append_at oDefault (expectedOutcomes gw 0 (chunks.take k))
      (mkFailure (chunks.getD k cDefault) e) (processChunksGo gw (k + 1) (chunks.drop (k + 1))).1
    rw [hlen] at this
    exact this
  · intro hnext
    show (k + 1) ∈ (processChunksGo gw 0 chunks).2.2
    rw [hprog]
    refine List.mem_append_right _ ?_
    refine List.mem_cons_of_mem _ ?_
    have hne : chunks.drop (k + 1) ≠ [] := by
      intro hnil
      have := List.length_drop (k + 1) chunks
      rw [hnil] at this
      simp at this
      omega
    obtain ⟨c2, rest2, hsplit⟩ : ∃ c2 rest2, chunks.drop (k + 1) = c2 :: rest2 := by
      cases hd : chunks.drop (k + 1) with
      | nil => exact absurd hd hne
      | cons c2 rest2 => exact ⟨c2, rest2, rfl⟩
    rw [hsplit]
    obtain ⟨t, ht⟩ := processChunksGo_trace_cons gw (k + 1) c2 rest2
    rw [ht]
    exact List.mem_cons_self _ _

/-- Test fixture: a first chunk. -/
def wChunkA : Chunk := ⟨str "pa", str "ta", 1, 2⟩
/-- Test fixture: a second chunk. -/
def wChunkB : Chunk := ⟨str "pb", str "tb", 2, 2⟩

/-- Test gateway whose second call fails with a rate-limit message. -/
def wGwRL : GW := fun i _ =>
  if i = 0 then .ok (str "fine") else .error (str "429 Too Many Requests")

/-- Test gateway whose first call fails with a non-rate-limit message. -/
def wGwErr : GW := fun i _ =>
  if i = 0 then .error (str "boom") else .ok (str "fine")

/-- Witness for claim C2: on two chunks with a rate-limit failure at
position 1, the hypotheses hold and processing stops with one recorded
outcome, calls 0 and 1 attempted. -/
theorem processChunks_rateLimitStop_witness :
    (processChunks wGwRL [wChunkA, wChunkB]).results.length = 1 ∧
    (processChunks wGwRL [wChunkA, wChunkB]).hitRateLimit = true ∧
    (processChunks wGwRL [wChunkA, wChunkB]).processedCount = 1 ∧
    attemptedCalls wGwRL [wChunkA, wChunkB] = List.range (1 + 1) :=
  processChunks_rateLimitStop wGwRL [wChunkA, wChunkB] 1 (by decide) (by decide) (by decide)

/-- Witness for claim C3: on two chunks with a non-rate-limit failure at
position 0, the hypotheses hold, the failure is recorded at position 0,
and the call for the next chunk is attempted. -/
theorem processChunks_continueOnError_witness :
    (processChunks wGwErr [wChunkA, wChunkB]).results.getD 0 oDefault =
      mkFailure ([wChunkA, wChunkB].getD 0 cDefault) (str "Gemini API error: boom") ∧
    0 + 1 ∈ attemptedCalls wGwErr [wChunkA, wChunkB] :=
  ⟨(processChunks_continueOnError wGwErr [wChunkA, wChunkB] 0 (str "Gemini API error: boom")
      (by decide) (by decide) rfl (by decide)).1,
   (processChunks_continueOnError wGwErr [wChunkA, wChunkB] 0 (str "Gemini API error: boom")
      (by decide) (by decide) rfl (by decide)).2 (by decide)⟩

/-! ## Claim about the Model Gateway dispatch -/

/-- Claim C8: for every provider identifier (recognized or not) and
every prompt, `modelResponse` produces the same result as calling
`geminiResponse` directly; no provider identifier fails for being
unrecognized. -/
theorem modelResponse_eq_geminiResponse (gw : GW) (callIdx : Nat) (model message : Str) :
    modelResponse gw callIdx model message = geminiResponse gw callIdx message := by
  unfold modelResponse
  split <;> rfl

/-! ## Claims about the handler -/

/-- Claim C9: an outcome recorded as a success but whose response text
is the empty string is excluded from the assembled parts — the handler
keeps only outcomes with a truthy `response`, so an empty-string success
contributes no `[Part n/total]` section even though it carries no
error. -/
theorem successParts_skips_empty_success (pre post : List Outcome) (o : Outcome)
    (totalCount : Nat) (hresp : o.response = some []) (herr : o.error = none) :
    successParts (pre ++ o :: post) totalCount = successParts (pre ++ post) totalCount := by
  unfold successParts
  rw [List.filter_append, List.filter_append, List.filter_cons]
  simp [truthyStr, hresp]

/-- Witness for claim C9: a concrete empty-string success between a
normal success and a failure outcome contributes nothing. -/
theorem successParts_skips_empty_success_witness :
    successParts ([mkSuccess wChunkA (str "good")] ++
        mkSuccess wChunkB [] :: [mkFailure wChunkB (str "bad")]) 2 =
      successParts ([mkSuccess wChunkA (str "good")] ++ [mkFailure wChunkB (str "bad")]) 2 :=
  successParts_skips_empty_success [mkSuccess wChunkA (str "good")]
    [mkFailure wChunkB (str "bad")] (mkSuccess wChunkB []) 2 (by decide) (by decide)

/-- Claim C10: for a POST request with a truthy message, the chunked
path is taken exactly when `mode = "infinite"` and `fullText` is truthy;
in particular, with `mode = "infinite"` and `fullText` present but equal
to the empty string, the request is routed to the single-call default
branch, whose reply carries mode `default` whenever the gateway call
succeeds. -/
theorem handler_routing (gw : GW) (req : Req)
    (hm : req.method = str "POST") (hmsg : truthyStr req.message = true) :
    ((handler gw req).mode = some (str "infinite") ↔
      (req.mode = some (str "infinite") ∧ truthyStr req.fullText = true)) ∧
    (req.mode = some (str "infinite") → req.fullText = some [] →
      handler gw req = defaultChat gw (req.message.getD []) ∧
      (∀ t, gw 0 (req.message.getD []) = .ok t →
        (handler gw req).mode = some (str "default"))) := by
  have hdc : ∀ m, (defaultChat gw m).mode = some (str "default") ∨ (defaultChat gw m).mode = none := by
    intro m
    unfold defaultChat
    cases modelResponse gw 0 (str "gemini") m with
    | ok t => left; rfl
    | error e => right; rfl
  have hne : ¬req.method ≠ str "POST" := fun h => h hm
  by_cases hP : req.mode = some (str "infinite") ∧ truthyStr req.fullText = true
  · have hh : (handler gw req).mode = some (str "infinite") := by
      unfold handler
      rw [if_neg hne, if_neg (by rw [hmsg]; simp), if_pos hP]
    constructor
    · exact ⟨fun _ => hP, fun _ => hh⟩
    · intro _ hft
      rw [hft] at hP
      simp [truthyStr] at hP
  · have hh : handler gw req = defaultChat gw (req.message.getD []) := by
      unfold handler
      rw [if_neg hne, if_neg (by rw [hmsg]; simp), if_neg hP]
    constructor
    · rw [hh]
      constructor
      · intro hmode
        rcases hdc (req.message.getD []) with h | h <;> rw [h] at hmode
        · exact absurd (Option.some.inj hmode) (by decide)
        · exact absurd hmode (by simp)
      · intro h; exact absurd h hP
    · intro _ _
      refine ⟨hh, fun t ht => ?_⟩
      rw [hh]
      unfold defaultChat
      have : modelResponse gw 0 (str "gemini") (req.message.getD []) = .ok t := by
        rw [modelResponse_eq_geminiResponse]
        unfold geminiResponse
        rw [ht]
      rw [this]

/-- Test gateway that always succeeds. -/
def wGwOk : GW := fun _ _ => .ok (str "hello")

/-- Test request: POST, non-empty message, mode `infinite`, empty-string
full text. -/
def wReq : Req := ⟨str "POST", some (str "hi"), some (str "infinite"), some []⟩

/-- Witness for claim C10: the concrete request `wReq` (POST, non-empty
message, mode `infinite`, empty-string `fullText`) is routed to the
default branch and, the gateway succeeding, answered with mode
`default`. -/
theorem handler_routing_witness :
    handler wGwOk wReq = defaultChat wGwOk (wReq.message.getD []) ∧
    (handler wGwOk wReq).mode = some (str "default") :=
  ⟨((handler_routing wGwOk wReq (by decide) (by decide)).2 (by decide) (by decide)).1,
   ((handler_routing wGwOk wReq (by decide) (by decide)).2 (by decide) (by decide)).2
     (str "hello") rfl⟩

/-! ## Structure of the whitespace split -/

/-- A token containing no whitespace character. -/
def noWsTok (t : Str) : Bool := t.all fun c => !isWs c

/-- Every token other than the first and the last is non-empty. -/
def midNonempty : List Str → Bool
  | _ :: t :: u :: rest => !t.isEmpty && midNonempty (t :: u :: rest)
  | _ => true

theorem midNonempty_irrel (a b : Str) (l : List Str) :
    midNonempty (a :: l) = midNonempty (b :: l) := by
  cases l with
  | nil => rfl
  | cons x l' => cases l' <;> rfl

/-- Unfolding equation of `splitWs` on a cons cell. -/
theorem splitWs_cons_eq (c : Char) (cs : Str) :
    splitWs (c :: cs) =
      if isWs c then
        match cs with
        | [] => [[], []]
        | c2 :: _ => if isWs c2 then splitWs cs else [] :: splitWs cs
      else
        match splitWs cs with
        | [] => [[c]]
        | t :: ts => (c :: t) :: ts := rfl

theorem splitWs_w_nil (c : Char) (hc : isWs c = true) : splitWs [c] = [[], []] := by
  rw [splitWs_cons_eq]
  simp only [hc, if_true]

theorem splitWs_ww (c c2 : Char) (cs' : Str) (hc : isWs c = true) (hc2 : isWs c2 = true) :
    splitWs (c :: c2 :: cs') = splitWs (c2 :: cs') := by
  rw [splitWs_cons_eq]
  simp only [hc, if_true, hc2]

theorem splitWs_wn (c c2 : Char) (cs' : Str) (hc : isWs c = true) (hc2 : isWs c2 = false) :
    splitWs (c :: c2 :: cs') = [] :: splitWs (c2 :: cs') := by
  rw [splitWs_cons_eq]
  simp only [hc, if_true, hc2, Bool.false_eq_true, if_false]

theorem splitWs_n (c : Char) (cs : Str) (hc : isWs c = false) (t : Str) (ts : List Str)
    (hsp : splitWs cs = t :: ts) : splitWs (c :: cs) = (c :: t) :: ts := by
  rw [splitWs_cons_eq]
  simp only [hc, Bool.false_eq_true, if_false, hsp]

theorem splitWs_ne_nil : ∀ (s : Str), splitWs s ≠ [] := by
  intro s
  induction s with
  | nil => simp [splitWs]
  | cons c cs ih =>
    by_cases hc : isWs c
    · cases cs with
      | nil => rw [splitWs_w_nil c (by simpa using hc)]; simp
      | cons c2 cs' =>
        by_cases hc2 : isWs c2
        · rw [splitWs_ww c c2 cs' (by simpa using hc) (by simpa using hc2)]; exact ih
        · rw [splitWs_wn c c2 cs' (by simpa using hc) (by simpa using hc2)]; simp
    · obtain ⟨u, us, hsp⟩ : ∃ u us, splitWs cs = u :: us := by
        cases h : splitWs cs with
        | nil => exact absurd h ih
        | cons u us => exact ⟨u, us, rfl⟩
      rw [splitWs_n c cs (by simpa using hc) u us hsp]
      simp

theorem splitWs_dest (cs : Str) : ∃ u us, splitWs cs = u :: us := by
  cases h : splitWs cs with
  | nil => exact absurd h (splitWs_ne_nil cs)
  | cons u us => exact ⟨u, us, rfl⟩

theorem splitWs_noWs : ∀ (s : Str) (t : Str), t ∈ splitWs s → noWsTok t = true := by
  intro s
  induction s with
  | nil =>
    intro t ht
    simp [splitWs] at ht
    simp [ht, noWsTok]
  | cons c cs ih =>
    intro t ht
    by_cases hc : isWs c
    · cases cs with
      | nil =>
        rw [splitWs_w_nil c (by simpa using hc)] at ht
        have ht' : t = [] := by
          rcases List.mem_cons.mp ht with h | h
          · exact h
          · simpa using h
        simp [ht', noWsTok]
      | cons c2 cs' =>
        by_cases hc2 : isWs c2
        · rw [splitWs_ww c c2 cs' (by simpa using hc) (by simpa using hc2)] at ht
          exact ih t ht
        · rw [splitWs_wn c c2 cs' (by simpa using hc) (by simpa using hc2)] at ht
          rcases List.mem_cons.mp ht with h | h
          · simp [h, noWsTok]
          · exact ih t h
    · obtain ⟨u, us, hsp⟩ := splitWs_dest cs
      rw [splitWs_n c cs (by simpa using hc) u us hsp] at ht
      rcases List.mem_cons.mp ht with h | h
      · subst h
        have hu : noWsTok u = true := ih u (by rw [hsp]; exact List.mem_cons_self u us)
        simp only [noWsTok, List.all_cons, Bool.and_eq_true, Bool.not_eq_true'] at hu ⊢
        exact ⟨by simpa using hc, hu⟩
      · exact ih t (by rw [hsp]; exact List.mem_cons_of_mem u h)

theorem splitWs_head_nonempty (c : Char) (cs : Str) (hc : isWs c = false) :
    ∃ t ts, splitWs (c :: cs) = (c :: t) :: ts := by
  obtain ⟨u, us, hsp⟩ := splitWs_dest cs
  exact ⟨u, us, splitWs_n c cs hc u us hsp⟩

theorem splitWs_mid : ∀ (s : Str), midNonempty (splitWs s) = true := by
  intro s
  induction s with
  | nil => rfl
  | cons c cs ih =>
    by_cases hc : isWs c
    · cases cs with
      | nil => rw [splitWs_w_nil c (by simpa using hc)]; rfl
      | cons c2 cs' =>
        by_cases hc2 : isWs c2
        · rw [splitWs_ww c c2 cs' (by simpa using hc) (by simpa using hc2)]; exact ih
        · rw [splitWs_wn c c2 cs' (by simpa using hc) (by simpa using hc2)]
          obtain ⟨t, ts, hts⟩ := splitWs_head_nonempty c2 cs' (by simpa using hc2)
          rw [hts]
          rw [hts] at ih
          cases ts with
          | nil => rfl
          | cons v r =>
            show (!(c2 :: t).isEmpty && midNonempty ((c2 :: t) :: v :: r)) = true
            simp only [List.isEmpty_cons, Bool.not_false, Bool.true_and]
            exact ih
    · obtain ⟨u, us, hsp⟩ := splitWs_dest cs
      rw [splitWs_n c cs (by simpa using hc) u us hsp]
      rw [hsp] at ih
      rw [midNonempty_irrel (c :: u) u us]
      exact ih

/-- Behaviour of the split on a leading whitespace character: the whole
whitespace run is one separator. -/
theorem splitWs_ws_cons : ∀ (m : Str) (c : Char), isWs c = true →
    splitWs (c :: m) = [] :: splitWs (m.dropWhile isWs) := by
  intro m
  induction m with
  | nil =>
    intro c hc
    rw [splitWs_w_nil c hc]
    rfl
  | cons c2 m' ih =>
    intro c hc
    by_cases hc2 : isWs c2
    · rw [splitWs_ww c c2 m' hc (by simpa using hc2), ih c2 (by simpa using hc2),
        List.dropWhile_cons_of_pos (by simpa using hc2)]
    · rw [splitWs_wn c c2 m' hc (by simpa using hc2),
        List.dropWhile_cons_of_neg (by simpa using hc2)]

/-- A whitespace-free string splits into the single token itself. -/
theorem splitWs_noWsTok (t : Str) (ht : noWsTok t = true) : splitWs t = [t] := by
  induction t with
  | nil => rfl
  | cons c t' ih =>
    simp only [noWsTok, List.all_cons, Bool.and_eq_true, Bool.not_eq_true'] at ht
    have ih' := ih (by simp [noWsTok, ht.2])
    exact splitWs_n c t' ht.1 t' [] ih'

/-- Splitting a whitespace-free token followed by a space: the token
comes off and the split continues past the whitespace run. -/
theorem splitWs_tok_space (t : Str) (ht : noWsTok t = true) (m : Str) :
    splitWs (t ++ ' ' :: m) = t :: splitWs (m.dropWhile isWs) := by
  induction t with
  | nil =>
    simpa using splitWs_ws_cons m ' ' (by decide)
  | cons c t' ih =>
    simp only [noWsTok, List.all_cons, Bool.and_eq_true, Bool.not_eq_true'] at ht
    have ih' := ih (by simp [noWsTok, ht.2])
    rw [List.cons_append]
    exact splitWs_n c (t' ++ ' ' :: m) ht.1 t' (splitWs (m.dropWhile isWs)) ih'

/-- Unfolding equation of `joinSep` on two or more elements. -/
theorem joinSep_cons2 (sep x y : Str) (xs : List Str) :
    joinSep sep (x :: y :: xs) = x ++ sep ++ joinSep sep (y :: xs) := rfl

/-- `joinSep` over a non-empty left part splits off. -/
theorem joinSep_append_cons (sep : Str) :
    ∀ (xs : List Str) (y : Str) (ys : List Str), xs ≠ [] →
      joinSep sep (xs ++ y :: ys) = joinSep sep xs ++ sep ++ joinSep sep (y :: ys) := by
  intro xs
  induction xs with
  | nil => intro y ys h; exact absurd rfl h
  | cons a xs' ih =>
    intro y ys _
    cases xs' with
    | nil => rfl
    | cons b xs'' =>
      have h2 := ih y ys (by simp)
      rw [show (a :: b :: xs'') ++ y :: ys = a :: ((b :: xs'') ++ y :: ys) from rfl]
      rw [show (b :: xs'') ++ y :: ys = b :: (xs'' ++ y :: ys) from rfl]
      rw [joinSep_cons2]
      rw [show b :: (xs'' ++ y :: ys) = (b :: xs'') ++ y :: ys from rfl]
      rw [h2, joinSep_cons2]
      simp [List.append_assoc]

/-- The first element of a `joinSep` is a prefix of the result. -/
theorem joinSep_cons_eq (sep : Str) (x : Str) (l : List Str) :
    ∃ z, joinSep sep (x :: l) = x ++ z := by
  cases l with
  | nil => exact ⟨[], by simp [joinSep]⟩
  | cons y ys => exact ⟨sep ++ joinSep sep (y :: ys), by simp [joinSep, List.append_assoc]⟩

/-- Key inverse property: joining with single spaces a token list of the
shape produced by `splitWs` (non-empty, whitespace-free tokens, no empty
interior token) and splitting again recovers the token list. -/
theorem splitWs_joinSep : ∀ (ws : List Str), ws ≠ [] →
    (∀ t ∈ ws, noWsTok t = true) → midNonempty ws = true →
    splitWs (joinSep (str " ") ws) = ws := by
  intro ws
  induction ws with
  | nil => intro h; exact absurd rfl h
  | cons t rest ih =>
    intro _ htoks hmid
    cases rest with
    | nil =>
      show splitWs (joinSep (str " ") [t]) = [t]
      rw [show joinSep (str " ") [t] = t from rfl]
      exact splitWs_noWsTok t (htoks t (List.mem_cons_self t []))
    | cons r0 rest' =>
      have hjoin : joinSep (str " ") (t :: r0 :: rest') =
          t ++ ' ' :: joinSep (str " ") (r0 :: rest') := by
        show t ++ str " " ++ joinSep (str " ") (r0 :: rest') = _
        rw [List.append_assoc]
        rfl
      rw [hjoin, splitWs_tok_space t (htoks t (List.mem_cons_self t _))]
      have hmid' : midNonempty (r0 :: rest') = true := by
        cases rest' with
        | nil => rfl
        | cons u r =>
          have h : (!r0.isEmpty && midNonempty (r0 :: u :: r)) = true := hmid
          simp only [Bool.and_eq_true] at h
          exact h.2
      have hrec : splitWs (joinSep (str " ") (r0 :: rest')) = r0 :: rest' :=
        ih (by simp) (fun x hx => htoks x (List.mem_cons_of_mem t hx)) hmid'
      have hdrop : (joinSep (str " ") (r0 :: rest')).dropWhile isWs =
          joinSep (str " ") (r0 :: rest') := by
        cases hr0 : r0 with
        | nil =>
          cases rest' with
          | nil => rfl
          | cons u r =>
            have h : (!r0.isEmpty && midNonempty (r0 :: u :: r)) = true := hmid
            rw [hr0] at h
            simp at h
        | cons w r0' =>
          obtain ⟨z, hz⟩ := joinSep_cons_eq (str " ") r0 rest'
          rw [hr0] at hz
          rw [hz]
          have hw : isWs w = false := by
            have h := htoks r0 (List.mem_cons_of_mem t (List.mem_cons_self r0 rest'))
            rw [hr0] at h
            simp only [noWsTok, List.all_cons, Bool.and_eq_true, Bool.not_eq_true'] at h
            exact h.1
          rw [List.cons_append]
          exact List.dropWhile_cons_of_neg (by simp [hw])
      rw [hdrop, hrec]

/-- Joining the per-group joins equals joining the flattened groups,
provided every group is non-empty. -/
theorem joinSep_map_joinSep : ∀ (groups : List (List Str)),
    (∀ g ∈ groups, g ≠ []) →
    joinSep (str " ") (groups.map (joinSep (str " "))) = joinSep (str " ") groups.flatten := by
  intro groups
  induction groups with
  | nil => intro _; rfl
  | cons g gs ih =>
    intro hne
    cases gs with
    | nil =>
      show joinSep (str " ") [joinSep (str " ") g] = joinSep (str " ") (g ++ [])
      rw [List.append_nil]
      rfl
    | cons g2 gs' =>
      have hg : g ≠ [] := hne g (List.mem_cons_self g _)
      have hg2 : g2 ≠ [] := hne g2 (List.mem_cons_of_mem g (List.mem_cons_self g2 gs'))
      obtain ⟨w, g2', hg2'⟩ : ∃ w g2', g2 = w :: g2' := by
        cases g2 with
        | nil => exact absurd rfl hg2
        | cons w g2' => exact ⟨w, g2', rfl⟩
      have hflat : (g2 :: gs').flatten = w :: (g2' ++ gs'.flatten) := by
        rw [List.flatten_cons, hg2']
        rfl
      have ihr := ih (fun x hx => hne x (List.mem_cons_of_mem g hx))
      show joinSep (str " ") (joinSep (str " ") g :: joinSep (str " ") g2 :: gs'.map (joinSep (str " "))) =
        joinSep (str " ") ((g :: g2 :: gs').flatten)
      rw [List.flatten_cons, hflat]
      rw [joinSep_append_cons (str " ") g w (g2' ++ gs'.flatten) hg]
      show joinSep (str " ") g ++ str " " ++
          joinSep (str " ") ((g2 :: gs').map (joinSep (str " "))) = _
      rw [ihr, List.flatten_cons, hg2']
      rfl

/-- Claim C5 (amended): joining the `chunkText` of all chunks in order
with a single space between consecutive chunks, and splitting the
result on whitespace, reproduces exactly the whitespace split of the
original text. -/
theorem processLongText_roundTrip (text userRequest : Str) (chunkSize : Nat)
    (hcs : 0 < chunkSize) :
    splitWs (joinSep (str " ")
        ((processLongText text userRequest chunkSize).map (fun ch => ch.chunkText))) =
      splitWs text := by
  have hmap : (processLongText text userRequest chunkSize).map (fun ch => ch.chunkText) =
      (chunksOf chunkSize (splitWs text)).map (joinSep (str " ")) :=
    buildChunks_map_chunkText _ _ _ _
  rw [hmap, joinSep_map_joinSep _ (chunksOf_ne_nil chunkSize (splitWs text)),
    chunksOf_flatten]
  exact splitWs_joinSep (splitWs text) (splitWs_ne_nil text) (splitWs_noWs text) (splitWs_mid text)

/-- Witness for claim C5 (amended) at `text = "a b"`, `chunkSize = 1`. -/
theorem processLongText_roundTrip_witness :
    splitWs (joinSep (str " ")
        ((processLongText (str "a b") (str "u") 1).map (fun ch => ch.chunkText))) =
      splitWs (str "a b") :=
  processLongText_roundTrip (str "a b") (str "u") 1 (by decide)

/-- Claim C5 as stated is false: with text `a b` and chunk size 1 the
chunk texts are `a` and `b`; concatenating them (with no separator)
yields `ab`, whose whitespace split `[ab]` differs from the whitespace
split `[a, b]` of the original text. -/
theorem processLongText_concat_not_roundTrip :
    splitWs ((processLongText (str "a b") (str "u") 1).map (fun ch => ch.chunkText)).flatten ≠
      splitWs (str "a b") := by decide

/-! ## Empty and whitespace-only text -/

/-- A non-empty all-whitespace string splits into two empty boundary
tokens, exactly as `" ".split(/\s+/)` evaluates to two empty strings. -/
theorem splitWs_all_ws (s : Str) (hne : s ≠ []) (hws : ∀ c ∈ s, isWs c = true) :
    splitWs s = [[], []] := by
  cases s with
  | nil => exact absurd rfl hne
  | cons c cs =>
    rw [splitWs_ws_cons cs c (hws c (List.mem_cons_self c cs))]
    have hdrop : cs.dropWhile isWs = [] :=
      List.dropWhile_eq_nil_iff.mpr fun x hx => hws x (List.mem_cons_of_mem c hx)
    rw [hdrop]
    rfl

theorem buildChunks_chunkText_mem (ur : Str) (tc : Nat) :
    ∀ (gs : List (List Str)) (n : Nat) (ch : Chunk), ch ∈ buildChunks ur tc n gs →
      ∃ g ∈ gs, ch.chunkText = joinSep (str " ") g := by
  intro gs
  induction gs with
  | nil => intro n ch h; simp [buildChunks] at h
  | cons g gs ih =>
    intro n ch h
    rcases List.mem_cons.mp h with h | h
    · exact ⟨g, List.mem_cons_self g gs, by rw [h]; rfl⟩
    · obtain ⟨g', hg', he⟩ := ih (n + 1) ch h
      exact ⟨g', List.mem_cons_of_mem g hg', he⟩

theorem joinSep_mem_chars : ∀ (g : List Str) (x : Char), x ∈ joinSep (str " ") g →
    x = ' ' ∨ ∃ t ∈ g, x ∈ t := by
  intro g
  induction g with
  | nil => intro x hx; simp [joinSep] at hx
  | cons t g' ih =>
    intro x hx
    cases g' with
    | nil =>
      right
      exact ⟨t, List.mem_cons_self t [], hx⟩
    | cons u g'' =>
      rw [joinSep_cons2] at hx
      rcases List.mem_append.mp hx with h | h
      · rcases List.mem_append.mp h with h | h
        · right; exact ⟨t, List.mem_cons_self t _, h⟩
        · left; simpa [str] using h
      · rcases ih x h with h | ⟨t', ht', hx'⟩
        · left; exact h
        · right; exact ⟨t', List.mem_cons_of_mem t ht', hx'⟩

/-- Claim C6 (amended): on an empty or whitespace-only text the splitter
does not return an empty sequence.  The split of an empty text is one
empty token and that of a non-empty whitespace-only text is two empty
boundary tokens, so the splitter returns `⌈wordCount/chunkSize⌉ ≥ 1`
chunks, each of whose chunk texts consists only of whitespace. -/
theorem processLongText_blank (userRequest : Str) (chunkSize : Nat) (hcs : 0 < chunkSize)
    (text : Str) (hblank : ∀ c ∈ text, isWs c = true) :
    0 < (processLongText text userRequest chunkSize).length ∧
    wordCount text = (if text = [] then 1 else 2) ∧
    (processLongText text userRequest chunkSize).length =
      (wordCount text + chunkSize - 1) / chunkSize ∧
    ∀ ch ∈ processLongText text userRequest chunkSize, ∀ c ∈ ch.chunkText, isWs c = true := by
  have htok : ∀ t ∈ splitWs text, t = [] := by
    cases htext : text with
    | nil =>
      intro t ht
      rw [show splitWs [] = [[]] from rfl] at ht
      simpa using ht
    | cons c cs =>
      intro t ht
      rw [splitWs_all_ws (c :: cs) (by simp) (by rw [← htext]; exact hblank)] at ht
      rcases List.mem_cons.mp ht with h | h
      · exact h
      · simpa using h
  have hwc : wordCount text = (if text = [] then 1 else 2) := by
    cases htext : text with
    | nil => rfl
    | cons c cs =>
      show (splitWs (c :: cs)).length = _
      rw [splitWs_all_ws (c :: cs) (by simp) (by rw [← htext]; exact hblank)]
      simp
  have hlen := processLongText_length text userRequest chunkSize hcs
  refine ⟨?_, hwc, hlen, ?_⟩
  · rw [hlen]
    have hw1 : 1 ≤ wordCount text := by
      rw [hwc]
      split <;> omega
    have : 1 ≤ (wordCount text + chunkSize - 1) / chunkSize := by
      rw [Nat.le_div_iff_mul_le hcs]
      omega
    omega
  · intro ch hch c hc
    obtain ⟨g, hg, he⟩ := buildChunks_chunkText_mem _ _ _ _ ch hch
    rw [he] at hc
    rcases joinSep_mem_chars g c hc with h | ⟨t, ht, hct⟩
    · rw [h]; decide
    · have : t = [] := htok t (chunksOf_mem_subset chunkSize (splitWs text) g hg t ht)
      rw [this] at hct
      simp at hct

/-- Witness for claim C6 (amended) at the whitespace-only text `" "`:
the hypotheses hold and the chunk sequence is non-empty. -/
theorem processLongText_blank_witness :
    0 < (processLongText (str " ") (str "u") 500).length ∧
    wordCount (str " ") = (if str " " = ([] : Str) then 1 else 2) :=
  ⟨(processLongText_blank (str "u") 500 (by decide) (str " ") (by decide)).1,
   (processLongText_blank (str "u") 500 (by decide) (str " ") (by decide)).2.1⟩

/-- Claim C6 as stated is false: on the empty text the splitter does not
return an empty sequence — the split of the empty string is one empty
token, so one chunk is produced. -/
theorem processLongText_empty_not_nil :
    processLongText (str "") (str "u") 500 ≠ [] := by decide

/-! ## Prompt templating -/

/-- `noChar c0 s`: the character `c0` does not occur in `s`. -/
def noChar (c0 : Char) (s : Str) : Prop := ∀ c ∈ s, c ≠ c0

instance (c0 : Char) (s : Str) : Decidable (noChar c0 s) :=
  inferInstanceAs (Decidable (∀ c ∈ s, c ≠ c0))

theorem noChar_append (c0 : Char) (x y : Str) (hx : noChar c0 x) (hy : noChar c0 y) :
    noChar c0 (x ++ y) := by
  intro c hc
  rcases List.mem_append.mp hc with h | h
  · exact hx c h
  · exact hy c h

/-- Unfolding equation of `leadsWith` on two cons cells. -/
theorem leadsWith_cons_cons (a b : Char) (as bs : Str) :
    leadsWith (a :: as) (b :: bs) = (a = b && leadsWith as bs) := rfl

theorem leadsWith_append_self : ∀ (p b : Str), leadsWith p (p ++ b) = true := by
  intro p
  induction p with
  | nil => intro b; rfl
  | cons a as ih =>
    intro b
    rw [List.cons_append, leadsWith_cons_cons]
    simp [ih b]

/-- Unfolding equation of `findSub` on a cons cell. -/
theorem findSub_cons_eq (pat : Str) (c : Char) (rest : Str) :
    findSub pat (c :: rest) =
      if leadsWith pat (c :: rest) then some 0 else (findSub pat rest).map (· + 1) := rfl

/-- The first occurrence of a pattern beginning with an opening brace,
placed after brace-free text, is found exactly there. -/
theorem findSub_append (s a pat b pt : Str) (hs : s = a ++ (pat ++ b))
    (hpat : pat = '\x7b' :: pt) (ha : noChar '\x7b' a) :
    findSub pat s = some a.length := by
  subst hs
  induction a with
  | nil =>
    rw [List.nil_append, hpat, List.cons_append, findSub_cons_eq,
      if_pos (by rw [← List.cons_append, ← hpat]; exact leadsWith_append_self pat b)]
    rfl
  | cons c a' ih =>
    rw [List.cons_append, findSub_cons_eq]
    have hlw : leadsWith pat (c :: (a' ++ (pat ++ b))) = false := by
      rw [hpat, leadsWith_cons_cons]
      have hne : c ≠ '\x7b' := ha c (List.mem_cons_self c a')
      have hne' : ¬('\x7b' = c) := fun h => hne h.symm
      simp [hne']
    rw [hlw]
    simp only [Bool.false_eq_true, if_false, ih (fun c hc => ha c (List.mem_cons_of_mem _ hc)),
      Option.map_some]
    rfl

/-- Unfolding equation of `dollarSubst` on two cons cells. -/
theorem dollarSubst_cons2_eq (m bf af : Str) (c d : Char) (r : Str) :
    dollarSubst m bf af (c :: d :: r) =
      if c = '$' then
        if d = '$' then '$' :: dollarSubst m bf af r
        else if d = '&' then m ++ dollarSubst m bf af r
        else if d = Char.ofNat 96 then bf ++ dollarSubst m bf af r
        else if d = Char.ofNat 39 then af ++ dollarSubst m bf af r
        else '$' :: dollarSubst m bf af (d :: r)
      else c :: dollarSubst m bf af (d :: r) := rfl

/-- A dollar-free replacement string passes through the ECMAScript
substitution untouched. -/
theorem dollarSubst_noDollar (m bf af : Str) :
    ∀ (r : Str), noChar '$' r → dollarSubst m bf af r = r := by
  intro r
  induction r with
  | nil => intro _; rfl
  | cons c r' ih =>
    intro h
    have hc : c ≠ '$' := h c (List.mem_cons_self c r')
    cases r' with
    | nil => rfl
    | cons d r'' =>
      rw [dollarSubst_cons2_eq, if_neg hc, ih (fun x hx => h x (List.mem_cons_of_mem c hx))]

theorem replaceFirst_eq_of_findSub (s pat repl : Str) (i : Nat) (h : findSub pat s = some i) :
    replaceFirst s pat repl =
      s.take i ++ dollarSubst pat (s.take i) (s.drop (i + pat.length)) repl ++
        s.drop (i + pat.length) := by
  unfold replaceFirst
  rw [h]

/-- `s.replace(pat, repl)` on a string of the shape
`a ++ pat ++ b` with brace-free `a`, a pattern beginning with an opening
brace and a dollar-free replacement inserts the replacement verbatim. -/
theorem replaceFirst_append (s a pat b repl pt : Str) (hs : s = a ++ (pat ++ b))
    (hpat : pat = '\x7b' :: pt) (ha : noChar '\x7b' a) (hrepl : noChar '$' repl) :
    replaceFirst s pat repl = a ++ (repl ++ b) := by
  have hfind := findSub_append s a pat b pt hs hpat ha
  rw [replaceFirst_eq_of_findSub s pat repl a.length hfind]
  subst hs
  have htake : (a ++ (pat ++ b)).take a.length = a := List.take_left a (pat ++ b)
  have hdrop : (a ++ (pat ++ b)).drop (a.length + pat.length) = b := by
    rw [← List.append_assoc, ← List.length_append a pat]
    exact List.drop_left (a ++ pat) b
  rw [htake, hdrop, dollarSubst_noDollar _ _ _ repl hrepl, List.append_assoc]

/-- Every character of the decimal rendering is a digit character. -/
theorem natToStrFuel_digits : ∀ (fuel n : Nat) (c : Char), c ∈ natToStrFuel fuel n →
    ∃ d, d < 10 ∧ c = digitChar d := by
  intro fuel
  induction fuel with
  | zero => intro n c hc; simp [natToStrFuel] at hc
  | succ f ih =>
    intro n c hc
    by_cases hn : n < 10
    · rw [show natToStrFuel (f + 1) n = [digitChar n] from by rw [natToStrFuel, if_pos hn]] at hc
      exact ⟨n, hn, by simpa using hc⟩
    · rw [show natToStrFuel (f + 1) n = natToStrFuel f (n / 10) ++ [digitChar (n % 10)] from by
        rw [natToStrFuel, if_neg hn]] at hc
      rcases List.mem_append.mp hc with h | h
      · exact ih (n / 10) c h
      · exact ⟨n % 10, Nat.mod_lt n (by omega), by simpa using h⟩

theorem digitChar_ne (d : Nat) : digitChar d ≠ '$' ∧ digitChar d ≠ '\x7b' := by
  unfold digitChar
  repeat' split
  all_goals decide

theorem natToStr_noDollar (n : Nat) : noChar '$' (natToStr n) := by
  intro c hc
  obtain ⟨d, _, hd⟩ := natToStrFuel_digits (n + 1) n c hc
  rw [hd]
  exact (digitChar_ne d).1

theorem natToStr_noBrace (n : Nat) : noChar '\x7b' (natToStr n) := by
  intro c hc
  obtain ⟨d, _, hd⟩ := natToStrFuel_digits (n + 1) n c hc
  rw [hd]
  exact (digitChar_ne d).2

/-- Decomposition of the template into its literal segments and its four
placeholders, in their source order. -/
theorem tmpl_decomp : systemPromptForEachChunk =
    seg1 ++ (patNum ++ (seg2 ++ (patTot ++ (seg3 ++ (patReq ++ (seg4 ++ (patTxt ++ seg5))))))) := by
  decide

theorem patNum_shape : patNum = '\x7b' :: str "\x7bchunk_number\x7d\x7d" := by decide
theorem patTot_shape : patTot = '\x7b' :: str "\x7btotal_chunks\x7d\x7d" := by decide
theorem patReq_shape : patReq = '\x7b' :: str "\x7buser_request\x7d\x7d" := by decide
theorem patTxt_shape : patTxt = '\x7b' :: str "\x7bchunk_text\x7d\x7d" := by decide

theorem seg_noBrace : noChar '\x7b' seg1 ∧ noChar '\x7b' seg2 ∧ noChar '\x7b' seg3 ∧
    noChar '\x7b' seg4 := by
  refine ⟨?_, ?_, ?_, ?_⟩ <;> decide

/-- With a dollar-free and brace-free user request and a dollar-free
chunk text, the four sequential `.replace` calls of the splitter
substitute each placeholder verbatim. -/
theorem buildPrompt_spec (n tc : Nat) (ur ct : Str)
    (hur1 : noChar '$' ur) (hur2 : noChar '\x7b' ur) (hct : noChar '$' ct) :
    buildPrompt n tc ur ct = specPrompt n tc ur ct := by
  obtain ⟨hs1, hs2, hs3, hs4⟩ := seg_noBrace
  have h1 : replaceFirst systemPromptForEachChunk patNum (natToStr n) =
      seg1 ++ (natToStr n ++ (seg2 ++ (patTot ++ (seg3 ++ (patReq ++ (seg4 ++ (patTxt ++ seg5))))))) :=
    replaceFirst_append _ seg1 patNum _ (natToStr n) _ tmpl_decomp patNum_shape hs1
      (natToStr_noDollar n)
  have h2 : replaceFirst (replaceFirst systemPromptForEachChunk patNum (natToStr n))
      patTot (natToStr tc) =
      (seg1 ++ (natToStr n ++ seg2)) ++
        (natToStr tc ++ (seg3 ++ (patReq ++ (seg4 ++ (patTxt ++ seg5))))) :=
    replaceFirst_append _ (seg1 ++ (natToStr n ++ seg2)) patTot
      (seg3 ++ (patReq ++ (seg4 ++ (patTxt ++ seg5)))) (natToStr tc) _
      (by rw [h1]; simp [List.append_assoc]) patTot_shape
      (noChar_append _ _ _ hs1 (noChar_append _ _ _ (natToStr_noBrace n) hs2))
      (natToStr_noDollar tc)
  have h3 : replaceFirst (replaceFirst (replaceFirst systemPromptForEachChunk
      patNum (natToStr n)) patTot (natToStr tc)) patReq ur =
      ((seg1 ++ (natToStr n ++ seg2)) ++ (natToStr tc ++ seg3)) ++
        (ur ++ (seg4 ++ (patTxt ++ seg5))) :=
    replaceFirst_append _ ((seg1 ++ (natToStr n ++ seg2)) ++ (natToStr tc ++ seg3)) patReq
      (seg4 ++ (patTxt ++ seg5)) ur _
      (by rw [h2]; simp [List.append_assoc]) patReq_shape
      (noChar_append _ _ _
        (noChar_append _ _ _ hs1 (noChar_append _ _ _ (natToStr_noBrace n) hs2))
        (noChar_append _ _ _ (natToStr_noBrace tc) hs3))
      hur1
  have h4 : replaceFirst (replaceFirst (replaceFirst (replaceFirst systemPromptForEachChunk
      patNum (natToStr n)) patTot (natToStr tc)) patReq ur) patTxt ct =
      (((seg1 ++ (natToStr n ++ seg2)) ++ (natToStr tc ++ seg3)) ++ (ur ++ seg4)) ++
        (ct ++ seg5) :=
    replaceFirst_append _
      (((seg1 ++ (natToStr n ++ seg2)) ++ (natToStr tc ++ seg3)) ++ (ur ++ seg4)) patTxt
      seg5 ct _
      (by rw [h3]; simp [List.append_assoc]) patTxt_shape
      (noChar_append _ _ _
        (noChar_append _ _ _
          (noChar_append _ _ _ hs1 (noChar_append _ _ _ (natToStr_noBrace n) hs2))
          (noChar_append _ _ _ (natToStr_noBrace tc) hs3))
        (noChar_append _ _ _ hur2 hs4))
      hct
  unfold buildPrompt specPrompt
  rw [h4]
  simp [List.append_assoc]

/-- Each character of a token of the whitespace split occurs in the
split string. -/
theorem splitWs_chars : ∀ (s : Str) (t : Str), t ∈ splitWs s → ∀ c ∈ t, c ∈ s := by
  intro s
  induction s with
  | nil =>
    intro t ht c hc
    rw [show splitWs [] = [[]] from rfl] at ht
    have h0 : t = [] := by simpa using ht
    rw [h0] at hc
    simp at hc
  | cons c0 cs ih =>
    intro t ht c hc
    by_cases h0 : isWs c0
    · cases cs with
      | nil =>
        rw [splitWs_w_nil c0 (by simpa using h0)] at ht
        have he : t = [] := by
          rcases List.mem_cons.mp ht with h | h
          · exact h
          · simpa using h
        rw [he] at hc
        simp at hc
      | cons c2 cs' =>
        by_cases h2 : isWs c2
        · rw [splitWs_ww c0 c2 cs' (by simpa using h0) (by simpa using h2)] at ht
          exact List.mem_cons_of_mem c0 (ih t ht c hc)
        · rw [splitWs_wn c0 c2 cs' (by simpa using h0) (by simpa using h2)] at ht
          rcases List.mem_cons.mp ht with h | h
          · rw [h] at hc; simp at hc
          · exact List.mem_cons_of_mem c0 (ih t h c hc)
    · obtain ⟨u, us, hsp⟩ := splitWs_dest cs
      rw [splitWs_n c0 cs (by simpa using h0) u us hsp] at ht
      rcases List.mem_cons.mp ht with h | h
      · rw [h] at hc
        rcases List.mem_cons.mp hc with h' | h'
        · rw [h']; exact List.mem_cons_self c0 cs
        · exact List.mem_cons_of_mem c0
            (ih u (by rw [hsp]; exact List.mem_cons_self u us) c h')
      · exact List.mem_cons_of_mem c0
          (ih t (by rw [hsp]; exact List.mem_cons_of_mem u h) c hc)

/-- A chunk text inherits dollar-freeness from the original text. -/
theorem chunkText_noDollar (text : Str) (htext : noChar '$' text) (chunkSize : Nat)
    (g : List Str) (hg : g ∈ chunksOf chunkSize (splitWs text)) :
    noChar '$' (joinSep (str " ") g) := by
  intro c hc
  rcases joinSep_mem_chars g c hc with h | ⟨t, ht, hct⟩
  · rw [h]; decide
  · have htok : t ∈ splitWs text := chunksOf_mem_subset chunkSize (splitWs text) g hg t ht
    exact htext c (splitWs_chars text t htok c hct)

/-- Claim C7 (amended): provided the user request contains neither a
dollar nor an opening-brace character and the text contains no dollar
character, the prompt of the chunk at position `i` equals the fixed
template with its four placeholders replaced respectively by the 1-based
index `i + 1`, the total chunk count, the verbatim user request, and the
chunk's words rejoined with single spaces (its `chunkText`).  Without
these restrictions, ECMAScript `$`-substitution in the replacement and
placeholder injection through the user request break verbatim
substitution. -/
theorem processLongText_prompt (text userRequest : Str) (chunkSize : Nat)
    (hur1 : noChar '$' userRequest) (hur2 : noChar '\x7b' userRequest)
    (htext : noChar '$' text) :
    ∀ i, i < (processLongText text userRequest chunkSize).length →
      ((processLongText text userRequest chunkSize).getD i cDefault).prompt =
        specPrompt (i + 1) ((wordCount text + chunkSize - 1) / chunkSize) userRequest
          ((processLongText text userRequest chunkSize).getD i cDefault).chunkText := by
  intro i hi
  have hlen : (processLongText text userRequest chunkSize).length =
      (chunksOf chunkSize (splitWs text)).length := buildChunks_length _ _ _ _
  have hi' : i < (chunksOf chunkSize (splitWs text)).length := by rw [← hlen]; exact hi
  have hplt : (processLongText text userRequest chunkSize).getD i cDefault =
      mkChunk userRequest ((wordCount text + chunkSize - 1) / chunkSize) (1 + i)
        ((chunksOf chunkSize (splitWs text)).getD i []) :=
    buildChunks_getD userRequest ((wordCount text + chunkSize - 1) / chunkSize)
      (chunksOf chunkSize (splitWs text)) 1 i hi'
  rw [hplt]
  have hg : (chunksOf chunkSize (splitWs text)).getD i [] ∈ chunksOf chunkSize (splitWs text) := by
    rw [List.getD_eq_getElem _ _ hi']
    exact List.getElem_mem hi'
  show buildPrompt (1 + i) ((wordCount text + chunkSize - 1) / chunkSize) userRequest
      (joinSep (str " ") ((chunksOf chunkSize (splitWs text)).getD i [])) = _
  rw [buildPrompt_spec (1 + i) ((wordCount text + chunkSize - 1) / chunkSize) userRequest
    (joinSep (str " ") ((chunksOf chunkSize (splitWs text)).getD i []))
    hur1 hur2 (chunkText_noDollar text htext chunkSize _ hg)]
  rw [Nat.add_comm 1 i]
  rfl

/-- Witness for claim C7 (amended) at `text = "a b c"`, request `do`,
chunk size 2, chunk position 0. -/
theorem processLongText_prompt_witness :
    ((processLongText (str "a b c") (str "do") 2).getD 0 cDefault).prompt =
      specPrompt (0 + 1) ((wordCount (str "a b c") + 2 - 1) / 2) (str "do")
        ((processLongText (str "a b c") (str "do") 2).getD 0 cDefault).chunkText :=
  processLongText_prompt (str "a b c") (str "do") 2 (by decide) (by decide) (by decide)
    0 (by decide)

/-- Claim C7 as stated is false: with user request `$&`, the ECMAScript
`$&` replacement pattern inserts the matched placeholder text itself
instead of the verbatim request, so the built prompt differs from the
template with the verbatim request substituted. -/
theorem processLongText_prompt_dollar :
    ((processLongText (str "hi") (str "$&") 500).getD 0 cDefault).prompt ≠
      specPrompt 1 1 (str "$&") (str "hi") := by decide

end Chat
